import Mathlib

/-!
Verification of the losslesscut-web backend's core logic against its design
notes: the HTTP range-serving file streamer (video handler), the FFmpeeg
progress parser, the keyframe-alignment heuristic, the merge planner, and the
export orchestrator's segment handling and chapter generation.

Machine floating-point times are modelled as exact rationals (`ℚ`) and Go's
`int64` as unbounded `Int`/`Nat` (overflow plays no role in the properties
below); byte strings are modelled as `List Char` / `List Nat`.
-/

namespace LosslessCut

/-- Splits a character list at every occurrence of `sep`, mirroring Go's
`strings.Split` with a one-character separator: `n` separators yield `n + 1`
fields, and the separator is not part of any field. -/
def splitChar (sep : Char) : List Char → List (List Char)
  | [] => [[]]
  | c :: cs =>
    if c = sep then
      [] :: splitChar sep cs
    else
      match splitChar sep cs with
      | [] => [[c]]
      | field :: rest => (c :: field) :: rest

/-- Tests that every character of the list is a decimal digit, as matched by
the RE2 class `\d`. -/
def allDigits (s : List Char) : Bool :=
  s.all Char.isDigit

/-- The numeric value of a decimal digit string, most significant digit
first. -/
def digitsVal (s : List Char) : Nat :=
  s.foldl (fun acc c => 10 * acc + (c.toNat - '0'.toNat)) 0

/-- Decimal parsing of an unsigned integer as Go's `strconv` does inside
`ParseInt` for base 10: the string must be nonempty and consist of decimal
digits only. Go's fixed-width overflow is not modelled (the properties below
never depend on it). -/
def parseDigits (s : List Char) : Option Nat :=
  if s ≠ [] ∧ allDigits s then some (digitsVal s) else none

/-- Go's `strconv.ParseInt(s, 10, 64)`: an optional leading sign followed by
at least one decimal digit. -/
def parseGoInt (s : List Char) : Option Int :=
  match s with
  | [] => none
  | c :: rest =>
    if c = '-' then (parseDigits rest).map (fun n => -(n : Int))
    else if c = '+' then (parseDigits rest).map (fun n => (n : Int))
    else (parseDigits (c :: rest)).map (fun n => (n : Int))

/-! ## Range-serving file streamer (video handler `handleRangeRequest`/`copyN`)

The served file is a list of bytes; a response is one of the handler's
outcomes.  `copyN` mirrors the streaming loop: a 32 KiB buffer, reading and
writing until `n` bytes are copied or the source is exhausted (an exhausted
source is the `io.EOF` error return). -/

/-- Copies `n` bytes of `file` starting at offset `off` through a 32 KiB
buffer, as the handler's `copyN` does; returns the bytes written and whether
the copy completed without a read error (reading at end-of-file yields the
error return in the Go code). -/
def copyN (file : List Nat) (off n : Nat) : List Nat × Bool :=
  if h0 : n = 0 then ([], true)
  else
    let toRead := min n 32768
    let nr := min toRead (file.length - off)
    if h1 : nr = 0 then ([], false)
    else
      let rest := copyN file (off + nr) (n - nr)
      ((file.drop off).take nr ++ rest.1, rest.2)
termination_by n
decreasing_by
  simp only [nr, toRead] at h1 ⊢
  omega

/-- The observable outcome of `handleRangeRequest`: a 400 response, a 416
response carrying its `Content-Range` header, or a 206 response carrying its
`Content-Range` header, declared `Content-Length`, the bytes actually
streamed and whether streaming completed. -/
inductive RangeResult where
  | badRequest (msg : String)
  | notSatisfiable (contentRange : String)
  | partialContent (contentRange : String) (contentLength : Int) (body : List Nat) (ok : Bool)
deriving DecidableEq, Repr

/-- The video handler's `handleRangeRequest`: parse `bytes=start-end`, default
a missing start to 0, bound a missing end by a 10 MiB chunk clamped to the
file, validate `0 ≤ start ≤ end < fileSize`, and on success stream exactly
`end - start + 1` bytes from offset `start` via `copyN`. -/
def handleRangeRequest (file : List Nat) (rangeHeader : List Char) : RangeResult :=
  let fileSize : Int := file.length
  if ("bytes=".toList).isPrefixOf rangeHeader then
    let rangeSpec := rangeHeader.drop 6
    match splitChar '-' rangeSpec with
    | [part0, part1] =>
      let start? : Option Int := if part0 = [] then some 0 else parseGoInt part0
      match start? with
      | none => .badRequest "invalid range start"
      | some start =>
        let stop? : Option Int :=
          if part1 = [] then
            let maxChunkSize : Int := 10 * 1024 * 1024
            let e := start + maxChunkSize - 1
            some (if fileSize ≤ e then fileSize - 1 else e)
          else parseGoInt part1
        match stop? with
        | none => .badRequest "invalid range end"
        | some stop =>
          if start < 0 ∨ fileSize ≤ start ∨ stop < start ∨ fileSize ≤ stop then
            .notSatisfiable ("bytes */" ++ toString fileSize)
          else
            let contentLength := stop - start + 1
            let streamed := copyN file start.toNat contentLength.toNat
            .partialContent
              ("bytes " ++ toString start ++ "-" ++ toString stop ++ "/" ++ toString fileSize)
              contentLength streamed.1 streamed.2
    | _ => .badRequest "invalid range format"
  else .badRequest "invalid range header"

/-! ## Progress parser (`ParseLine`, `parseFFmpegTime`) -/

/-- The FFmpeg time parser's core, after the optional leading minus has been
consumed: the rest of the string must decompose as `\d+:\d+:\d+\.\d+` (the
anchored regex of `parseFFmpegTime`), and the value is
`hours*3600 + minutes*60 + seconds + centiseconds/100`, negated when the
leading minus was present. -/
def ffTimeCore (neg : Bool) (rest : List Char) : Option ℚ :=
  match splitChar ':' rest with
  | [g1, g2, g3cs] =>
    match splitChar '.' g3cs with
    | [g3, g4] =>
      if g1 ≠ [] ∧ g2 ≠ [] ∧ g3 ≠ [] ∧ g4 ≠ [] ∧
          allDigits g1 ∧ allDigits g2 ∧ allDigits g3 ∧ allDigits g4 then
        let totalSeconds : ℚ :=
          ((digitsVal g1 * 3600 + digitsVal g2 * 60 + digitsVal g3 : ℕ) : ℚ)
            + (digitsVal g4 : ℚ) / 100
        some (if neg then -totalSeconds else totalSeconds)
      else none
    | _ => none
  | _ => none

/-- The progress parser's `parseFFmpegTime`: anchored match of
`(-?)(\d+):(\d+):(\d+)\.(\d+)` with a leading `-` negating the value;
anything else is the error return, modelled as `none`. -/
def parseFFmpegTime (s : List Char) : Option ℚ :=
  match s with
  | [] => none
  | c :: rest =>
    if c = '-' then ffTimeCore true rest else ffTimeCore false (c :: rest)

/-- The outcome of matching one stderr line against the parser's two
progress regexes: a line of the video shape (`frame= ... time=<t> ...`) or of
the audio-only shape (`size= ... time=<t> ...`) with its captured `time`
field, or a line matching neither. -/
inductive FFLine where
  | video (timeField : List Char)
  | audio (timeField : List Char)
  | other
deriving DecidableEq, Repr

/-- The `time=` capture group of a matched line, when the line matched either
progress regex. -/
def FFLine.timeField? : FFLine → Option (List Char)
  | .video t => some t
  | .audio t => some t
  | .other => none

/-- The progress parser's `ParseLine` for a parser constructed with the given
total `duration`: `-1` when the line matches neither regex, when the time
field is malformed, when the parsed time is negative, or when the duration is
not positive; otherwise elapsed over duration capped at 1. -/
def ParseLine (duration : ℚ) (line : FFLine) : ℚ :=
  match line.timeField? with
  | none => -1
  | some timeStr =>
    match parseFFmpegTime timeStr with
    | none => -1
    | some currentTime =>
      if currentTime < 0 then -1
      else if duration ≤ 0 then -1
      else min (currentTime / duration) 1

/-! ## Keyframe heuristic (`canDoLosslessCut`) -/

/-- The keyframe-alignment tolerance of `canDoLosslessCut`, 0.1 seconds. -/
def tolerance : ℚ := 1 / 10

/-- The keyframe scan of `canDoLosslessCut` over the extracted keyframe
timestamps: one pass sets a flag for each boundary as soon as some keyframe
lies within the tolerance of it, and the cut is lossless-feasible when both
flags are set. -/
def canDoLosslessCut (keyframes : List ℚ) (start stop : ℚ) : Bool :=
  let flags := keyframes.foldl
    (fun (acc : Bool × Bool) kf =>
      ((if |kf - start| ≤ tolerance then true else acc.1),
       (if |kf - stop| ≤ tolerance then true else acc.2)))
    (false, false)
  flags.1 && flags.2

/-! ## Segments and the export orchestrator (`operation_service.go`) -/

/-- A project segment as the export code reads it: the identifier, the
display name, the start time and the optional end time (`End *float64` in the
source; `none` is an absent end). -/
structure Segment where
  id : String
  name : String
  start : ℚ
  endTime? : Option ℚ
  selected : Bool := false
deriving DecidableEq, Repr

/-- The effective end time the export paths compute for one segment:
`end := seg.Start + 60.0; if seg.End != nil { end = *seg.End }`. -/
def segmentEnd (seg : Segment) : ℚ :=
  match seg.endTime? with
  | some e => e
  | none => seg.start + 60

/-- The effective segment list `runExport` operates on: when the request
names at least one segment id, the project's segments are filtered to those
whose id matches some requested id (outer loop over the project's segments,
inner loop over the requested ids); otherwise all of the project's segments
are used. -/
def effectiveSegments (projectSegments : List Segment) (segmentIDs : List String) : List Segment :=
  if 0 < segmentIDs.length then
    projectSegments.filter (fun seg => segmentIDs.any (fun i => seg.id == i))
  else projectSegments

/-- One FFmpeg cut invocation as the orchestrator issues it: input path,
output path and the `[start, stop)` window (`CutVideo` receives `start` and
`stop` and derives the duration). -/
structure CutCmd where
  input : String
  output : String
  start : ℚ
  stop : ℚ
deriving DecidableEq, Repr

/-- The single cut issued by `runExport` when exactly one segment is
exported. -/
def singleSegmentCut (inputPath outputPath : String) (seg : Segment) : CutCmd :=
  { input := inputPath, output := outputPath, start := seg.start, stop := segmentEnd seg }

/-- The per-fragment cuts issued by `exportMergedSegments` before the merge;
`tempFile i` names the temp fragment for segment index `i` (a fresh
UUID-based name in the source). -/
def exportMergedSegmentsCuts (inputPath : String) (tempFile : Nat → String)
    (segments : List Segment) : List CutCmd :=
  segments.enum.map fun p =>
    { input := inputPath, output := tempFile p.1, start := p.2.start, stop := segmentEnd p.2 }

/-- The duration hint `exportMergedSegments` passes to the merge: the sum of
the segments' effective durations. -/
def mergedTotalDuration (segments : List Segment) : ℚ :=
  segments.foldl (fun acc seg => acc + (segmentEnd seg - seg.start)) 0

/-- The per-segment cuts issued by `exportMultipleSegments`, each to the
final `<base>_segment_<n>.<format>` output. -/
def exportMultipleSegmentsCuts (inputPath outputBaseName format : String)
    (segments : List Segment) : List CutCmd :=
  segments.enum.map fun p =>
    { input := inputPath,
      output := outputBaseName ++ "_segment_" ++ toString (p.1 + 1) ++ "." ++ format,
      start := p.2.start, stop := segmentEnd p.2 }

/-! ## Merge planner (`MergeVideos`) -/

/-- The concat list file content `MergeVideos` writes: one `file '<input>'`
line per input, in caller order. -/
def concatFileContent (inputs : List String) : String :=
  String.join (inputs.map fun input => "file '" ++ input ++ "'\n")

/-- What `MergeVideos` decides before handing off to the process runner:
either an error before any process is spawned, or a spawn of the concat
demuxer with the written concat list content and the argument vector. -/
inductive MergePlan where
  | earlyError (msg : String)
  | spawn (concatContent : String) (args : List String)
deriving DecidableEq, Repr

/-- Tests that a merge plan spawns the external process. -/
def MergePlan.isSpawn : MergePlan → Bool
  | .spawn _ _ => true
  | .earlyError _ => false

/-- The plan `MergeVideos` builds: it writes the concat list for the given
inputs (with no validation of the input count) and invokes the concat
demuxer on it. -/
def mergeVideosPlan (inputs : List String) (output : String) : MergePlan :=
  let concatFile := output ++ ".concat.txt"
  .spawn (concatFileContent inputs)
    ["-hide_banner", "-f", "concat", "-safe", "0", "-i", concatFile, "-map", "0",
     "-c", "copy", "-avoid_negative_ts", "make_zero", "-movflags", "+faststart",
     "-y", output]

/-! ## Chapter generation (`generateChaptersTXT` / `generateChaptersJSON`) -/

/-- Go's `int(x)` conversion of a float: truncation toward zero. -/
def goTrunc (t : ℚ) : Int :=
  if 0 ≤ t then ⌊t⌋ else ⌈t⌉

/-- Go's `%02d` verb: the decimal rendering left-padded with zeros to width
two. -/
def pad2 (n : Int) : String :=
  if 0 ≤ n ∧ n < 10 then "0" ++ toString n else toString n

/-- Go's `%03d` verb: the decimal rendering left-padded with zeros to width
three. -/
def pad3 (n : Int) : String :=
  if 0 ≤ n ∧ n < 10 then "00" ++ toString n
  else if 0 ≤ n ∧ n < 100 then "0" ++ toString n
  else toString n

/-- One timestamp as `generateChaptersTXT` writes it:
`fmt.Sprintf("00:%02d:%02d:%02d.%03d", int(t)/3600, (int(t)%3600)/60,
int(t)%60, int((t-float64(int(t)))*1000))` — a literal `00:` followed by
hours, minutes, seconds and truncated milliseconds. -/
def chapterTimeString (t : ℚ) : String :=
  let ti : Int := goTrunc t
  "00:" ++ pad2 (Int.tdiv ti 3600) ++ ":" ++ pad2 (Int.tdiv (Int.tmod ti 3600) 60) ++ ":"
    ++ pad2 (Int.tmod ti 60) ++ "." ++ pad3 (goTrunc ((t - (ti : ℚ)) * 1000))

/-- The chapter name the generators use: the segment's name, defaulting to
`Chapter <n>` (1-based) when empty. -/
def chapterName (i : Nat) (seg : Segment) : String :=
  if seg.name = "" then "Chapter " ++ toString (i + 1) else seg.name

/-- One stanza of the plain-text chapter artifact: the name line, the start
timestamp line, the end timestamp line and a blank line. -/
def chapterStanza (i : Nat) (seg : Segment) : String :=
  chapterName i seg ++ "\n"
    ++ chapterTimeString seg.start ++ "\n"
    ++ chapterTimeString (segmentEnd seg) ++ "\n\n"

/-- The plain-text chapter artifact `generateChaptersTXT` builds: the
concatenation of one stanza per segment. -/
def generateChaptersTXT (segments : List Segment) : String :=
  String.join (segments.enum.map fun p => chapterStanza p.1 p.2)

/-- One entry of the JSON chapter artifact (the XML artifact carries the
same three fields per `<chapter>` element). -/
structure Chapter where
  start : ℚ
  stop : ℚ
  name : String
deriving DecidableEq, Repr

/-- The chapter list `generateChaptersJSON` serializes: start, effective end
and name per segment, in segment order. -/
def generateChaptersJSON (segments : List Segment) : List Chapter :=
  segments.enum.map fun p =>
    { start := p.2.start, stop := segmentEnd p.2, name := chapterName p.1 p.2 }

/-! ## The operation's visible progress

`runExport` installs one callback that stores `progress * 100` into the
Operation whenever `ParseLine` returns a non-negative value for a stderr
line, and `exportMultipleSegments` passes that same callback to every
per-segment `CutVideo` call (each of which parses progress against its own
segment's duration). -/

/-- The successive values `operation.Progress` takes while one `CutVideo`
(or merge) invocation with the given duration hint consumes the given stderr
lines: `ParseLine` is applied to each line and non-negative results are
scaled by 100 and stored. -/
def cutProgressTrace (duration : ℚ) (lines : List FFLine) : List ℚ :=
  lines.filterMap fun line =>
    let progress := ParseLine duration line
    if 0 ≤ progress then some (progress * 100) else none

/-- The successive values `operation.Progress` takes during
`exportMultipleSegments`: the concatenation of each per-segment cut's trace,
where segment `i`'s cut parses progress against that segment's effective
duration and `stderrs.get? i` is that cut's stderr. -/
def exportSeparateProgressTrace (segments : List Segment)
    (stderrs : List (List FFLine)) : List ℚ :=
  ((segments.zip stderrs).map fun p =>
    cutProgressTrace (segmentEnd p.1 - p.1.start) p.2).flatten

/-- The elapsed time carried by one stderr line, when the line matches one of
the progress regexes and its time field parses. -/
def lineElapsed (line : FFLine) : Option ℚ :=
  match line.timeField? with
  | none => none
  | some timeStr => parseFFmpegTime timeStr

/-! ## Analysis helpers: inverses and shape predicates used to state the
properties (these are specification-side definitions, not part of the
embedded code). -/

/-- Interleaves the separator back between fields; the left inverse of
`splitChar`. -/
def joinSep (sep : Char) : List (List Char) → List Char
  | [] => []
  | [f] => f
  | f :: rest => f ++ sep :: joinSep sep rest

/-- The shape `\d+:\d+:\d+\.\d+` (each group nonempty, digits only), the
unsigned body accepted by the time regex of `parseFFmpegTime`. -/
def CoreTimeShape (rest : List Char) : Prop :=
  ∃ g1 g2 g3 g4 : List Char,
    g1 ≠ [] ∧ g2 ≠ [] ∧ g3 ≠ [] ∧ g4 ≠ [] ∧
    allDigits g1 ∧ allDigits g2 ∧ allDigits g3 ∧ allDigits g4 ∧
    rest = g1 ++ ':' :: (g2 ++ ':' :: (g3 ++ '.' :: g4))

/-- The full shape `-?\d+:\d+:\d+\.\d+` accepted by `parseFFmpegTime`: the
unsigned body, optionally preceded by one minus sign. -/
def FFTimeShape (s : List Char) : Prop :=
  CoreTimeShape s ∨ ∃ rest, s = '-' :: rest ∧ CoreTimeShape rest

/-- Reads exactly two decimal digits as a number; `none` for any other
shape. -/
def readTwoDigit : List Char → Option Nat
  | [c1, c2] => if c1.isDigit && c2.isDigit then some (digitsVal [c1, c2]) else none
  | _ => none

/-- Reads exactly three decimal digits as a number; `none` for any other
shape. -/
def readThreeDigit : List Char → Option Nat
  | [c1, c2, c3] =>
    if c1.isDigit && c2.isDigit && c3.isDigit then some (digitsVal [c1, c2, c3]) else none
  | _ => none

/-- Reads back a timestamp of the exact shape `00:HH:MM:SS.mmm` the chapter
writer emits (for hours below 100), returning whole seconds and
milliseconds; `none` for any other shape. -/
def readTimestamp (s : List Char) : Option (Nat × Nat) :=
  match s with
  | '0' :: '0' :: ':' :: h1 :: h2 :: ':' :: m1 :: m2 :: ':' :: s1 :: s2 :: '.' :: d1 :: d2 :: d3 :: [] =>
    if allDigits [h1, h2, m1, m2, s1, s2, d1, d2, d3] then
      some (digitsVal [h1, h2] * 3600 + digitsVal [m1, m2] * 60 + digitsVal [s1, s2],
            digitsVal [d1, d2, d3])
    else none
  | _ => none

/-- Tests the `HH:MM:SS.mmm` timestamp shape (two-digit hours, minutes and
seconds, three-digit milliseconds, two colons, one dot). -/
def isHHMMSSmmm (s : List Char) : Bool :=
  match s with
  | [h1, h2, ':', m1, m2, ':', s1, s2, '.', d1, d2, d3] =>
    allDigits [h1, h2, m1, m2, s1, s2, d1, d2, d3]
  | _ => false

/-! ## General lemmas about the embedded primitives -/

theorem splitChar_ne_nil (sep : Char) (s : List Char) : splitChar sep s ≠ [] := by
  induction s with
  | nil => simp [splitChar]
  | cons c cs ih =>
    unfold splitChar
    by_cases h : c = sep
    · simp [h]
    · simp only [if_neg h]
      cases hs : splitChar sep cs with
      | nil => exact absurd hs ih
      | cons f rest => simp

theorem splitChar_of_not_mem (sep : Char) (s : List Char) (h : sep ∉ s) :
    splitChar sep s = [s] := by
  induction s with
  | nil => rfl
  | cons c cs ih =>
    have hc : c ≠ sep := fun hc => h (hc ▸ List.mem_cons_self c cs)
    have hcs : sep ∉ cs := fun hm => h (List.mem_cons_of_mem c hm)
    unfold splitChar
    rw [if_neg hc, ih hcs]

theorem splitChar_append (sep : Char) (a b : List Char) (h : sep ∉ a) :
    splitChar sep (a ++ sep :: b) = a :: splitChar sep b := by
  induction a with
  | nil => simp [splitChar]
  | cons c a' ih =>
    have hc : c ≠ sep := fun hc => h (hc ▸ List.mem_cons_self c a')
    have ha' : sep ∉ a' := fun hm => h (List.mem_cons_of_mem c hm)
    have step : splitChar sep (c :: (a' ++ sep :: b)) =
        match splitChar sep (a' ++ sep :: b) with
        | [] => [[c]]
        | field :: rest => (c :: field) :: rest := by
      conv_lhs => unfold splitChar
      rw [if_neg hc]
    rw [List.cons_append, step, ih ha']

theorem joinSep_cons_cons (sep : Char) (c : Char) (f : List Char) (rest : List (List Char)) :
    joinSep sep ((c :: f) :: rest) = c :: joinSep sep (f :: rest) := by
  cases rest with
  | nil => rfl
  | cons g rest' => rfl

theorem joinSep_splitChar (sep : Char) (s : List Char) :
    joinSep sep (splitChar sep s) = s := by
  induction s with
  | nil => rfl
  | cons c cs ih =>
    unfold splitChar
    by_cases h : c = sep
    · subst h
      simp only [if_pos rfl]
      cases hs : splitChar c cs with
      | nil => exact absurd hs (splitChar_ne_nil c cs)
      | cons f rest =>
        rw [hs] at ih
        show joinSep c ([] :: f :: rest) = c :: cs
        rw [show joinSep c ([] :: f :: rest) = [] ++ c :: joinSep c (f :: rest) from rfl]
        simp [ih]
    · simp only [if_neg h]
      cases hs : splitChar sep cs with
      | nil => exact absurd hs (splitChar_ne_nil sep cs)
      | cons f rest =>
        rw [hs] at ih
        rw [joinSep_cons_cons, ih]

theorem not_mem_of_mem_splitChar (sep : Char) (s : List Char) :
    ∀ f ∈ splitChar sep s, sep ∉ f := by
  induction s with
  | nil =>
    intro f hf
    simp [splitChar] at hf
    simp [hf]
  | cons c cs ih =>
    intro f hf
    unfold splitChar at hf
    by_cases h : c = sep
    · rw [if_pos h] at hf
      rcases List.mem_cons.mp hf with h1 | h1
      · simp [h1]
      · exact ih f h1
    · rw [if_neg h] at hf
      cases hs : splitChar sep cs with
      | nil => exact absurd hs (splitChar_ne_nil sep cs)
      | cons g rest =>
        rw [hs] at hf
        rcases List.mem_cons.mp hf with h1 | h1
        · subst h1
          intro hm
          rcases List.mem_cons.mp hm with h2 | h2
          · exact h h2.symm
          · exact ih g (hs ▸ List.mem_cons_self g rest) h2
        · exact ih f (hs ▸ List.mem_cons_of_mem g h1)

theorem not_mem_of_allDigits {s : List Char} {c : Char} (hs : allDigits s)
    (hc : c.isDigit = false) : c ∉ s := by
  intro hm
  have := List.all_eq_true.mp hs c hm
  rw [hc] at this
  exact absurd this (by simp)

theorem parseDigits_some {s : List Char} {v : Nat} (h : parseDigits s = some v) :
    s ≠ [] ∧ allDigits s = true ∧ digitsVal s = v := by
  unfold parseDigits at h
  split at h
  · rename_i hcond
    exact ⟨hcond.1, hcond.2, by injection h⟩
  · exact absurd h (by simp)

theorem parseGoInt_of_parseDigits {s : List Char} {v : Nat} (h : parseDigits s = some v) :
    parseGoInt s = some (v : Int) := by
  obtain ⟨hne, hdig, _⟩ := parseDigits_some h
  cases s with
  | nil => exact absurd rfl hne
  | cons c rest =>
    have hcdig : c.isDigit = true := by
      have := List.all_eq_true.mp hdig c (List.mem_cons_self c rest)
      simpa using this
    have hminus : c ≠ '-' := by intro hc; rw [hc] at hcdig; exact absurd hcdig (by decide)
    have hplus : c ≠ '+' := by intro hc; rw [hc] at hcdig; exact absurd hcdig (by decide)
    have hdef : parseGoInt (c :: rest) =
        if c = '-' then (parseDigits rest).map (fun n => -(n : Int))
        else if c = '+' then (parseDigits rest).map (fun n => (n : Int))
        else (parseDigits (c :: rest)).map (fun n => (n : Int)) := rfl
    rw [hdef, if_neg hminus, if_neg hplus, h]
    rfl

theorem copyN_exact (file : List Nat) :
    ∀ (n off : Nat), off + n ≤ file.length →
      copyN file off n = ((file.drop off).take n, true) := by
  intro n
  induction n using Nat.strong_induction_on with
  | _ n ih =>
    intro off h
    rw [copyN]
    by_cases h0 : n = 0
    · subst h0; simp
    · rw [dif_neg h0]
      have hmin : min (min n 32768) (file.length - off) = min n 32768 := by omega
      simp only [hmin]
      have hnr0 : ¬ min n 32768 = 0 := by omega
      rw [dif_neg hnr0]
      have hrec : copyN file (off + min n 32768) (n - min n 32768) =
          ((file.drop (off + min n 32768)).take (n - min n 32768), true) := by
        rcases Nat.lt_or_ge n 32768 with hlt | hge
        · have : min n 32768 = n := by omega
          rw [this]
          simp [copyN]
        · exact ih (n - min n 32768) (by omega) (off + min n 32768) (by omega)
      rw [hrec]
      have hdrop : file.drop (off + min n 32768) = (file.drop off).drop (min n 32768) := by
        rw [List.drop_drop]
      rw [hdrop]
      have htake : (file.drop off).take (min n 32768) ++
          ((file.drop off).drop (min n 32768)).take (n - min n 32768) =
          (file.drop off).take n := by
        rw [← List.take_add]
        congr 1
        omega
      rw [htake]

theorem length_take_of_le {α : Type} (l : List α) (n : Nat) (h : n ≤ l.length) :
    (l.take n).length = n := by
  rw [List.length_take]
  omega

theorem isPrefixOf_append_self (l r : List Char) : l.isPrefixOf (l ++ r) = true := by
  induction l with
  | nil => simp [List.isPrefixOf]
  | cons c cs ih => simp [List.isPrefixOf, ih]

theorem drop6_bytes (rest : List Char) : ("bytes=".toList ++ rest).drop 6 = rest := by
  rw [show (6 : Nat) = ("bytes=".toList).length from rfl, List.drop_left]

/-- C1: with both bounds present, `Range: bytes=A-B` (for decimal digit
strings denoting `A` and `B`) is served iff `0 ≤ A ≤ B < fileSize`: when
satisfiable the response is partial content with
`Content-Range: bytes A-B/fileSize`, `Content-Length = B-A+1`, and exactly
the `B-A+1` bytes of the file starting at offset `A` are streamed; otherwise
the response is range-not-satisfiable with `Content-Range: bytes */fileSize`
and no bytes are read (no `copyN` occurs in that branch of the handler). -/
theorem rangeRequest_bounded_spec (file : List Nat) (da db : List Char) (A B : Nat)
    (hA : parseDigits da = some A) (hB : parseDigits db = some B) :
    ((A ≤ B ∧ B < file.length) →
      handleRangeRequest file ("bytes=".toList ++ (da ++ '-' :: db)) =
        RangeResult.partialContent
          ("bytes " ++ toString (A : Int) ++ "-" ++ toString (B : Int) ++ "/"
            ++ toString (file.length : Int))
          ((B : Int) - (A : Int) + 1) ((file.drop A).take (B - A + 1)) true ∧
      ((file.drop A).take (B - A + 1)).length = B - A + 1) ∧
    (¬ (A ≤ B ∧ B < file.length) →
      handleRangeRequest file ("bytes=".toList ++ (da ++ '-' :: db)) =
        RangeResult.notSatisfiable ("bytes */" ++ toString (file.length : Int))) := by
  obtain ⟨hdaNe, hdaDig, -⟩ := parseDigits_some hA
  obtain ⟨hdbNe, hdbDig, -⟩ := parseDigits_some hB
  have hdashA : '-' ∉ da := not_mem_of_allDigits hdaDig (by decide)
  have hdashB : '-' ∉ db := not_mem_of_allDigits hdbDig (by decide)
  have hsplit : splitChar '-' (da ++ '-' :: db) = [da, db] := by
    rw [splitChar_append '-' da db hdashA, splitChar_of_not_mem '-' db hdashB]
  have hgA := parseGoInt_of_parseDigits hA
  have hgB := parseGoInt_of_parseDigits hB
  have hreduce : handleRangeRequest file ("bytes=".toList ++ (da ++ '-' :: db)) =
      if (A : Int) < 0 ∨ (file.length : Int) ≤ (A : Int) ∨ (B : Int) < (A : Int)
          ∨ (file.length : Int) ≤ (B : Int) then
        RangeResult.notSatisfiable ("bytes */" ++ toString (file.length : Int))
      else
        RangeResult.partialContent
          ("bytes " ++ toString (A : Int) ++ "-" ++ toString (B : Int) ++ "/"
            ++ toString (file.length : Int))
          ((B : Int) - (A : Int) + 1)
          (copyN file ((A : Int)).toNat (((B : Int) - (A : Int) + 1)).toNat).1
          (copyN file ((A : Int)).toNat (((B : Int) - (A : Int) + 1)).toNat).2 := by
    simp only [handleRangeRequest, isPrefixOf_append_self, if_true, drop6_bytes, hsplit,
      hdaNe, if_neg, hgA, hdbNe, hgB, ite_false, ite_true]
  constructor
  · intro h
    have hA0 : ((A : Int)).toNat = A := by omega
    have hB0 : (((B : Int) - (A : Int) + 1)).toNat = B - A + 1 := by omega
    have hcond : ¬ ((A : Int) < 0 ∨ (file.length : Int) ≤ (A : Int) ∨ (B : Int) < (A : Int)
        ∨ (file.length : Int) ≤ (B : Int)) := by omega
    rw [hreduce, if_neg hcond, hA0, hB0,
      copyN_exact file (B - A + 1) A (by omega)]
    refine ⟨rfl, length_take_of_le _ _ ?_⟩
    rw [List.length_drop]
    omega
  · intro h
    have hcond : (A : Int) < 0 ∨ (file.length : Int) ≤ (A : Int) ∨ (B : Int) < (A : Int)
        ∨ (file.length : Int) ≤ (B : Int) := by omega
    rw [hreduce, if_pos hcond]

/-- Witness for C1 at a concrete input: a five-byte file served the range
`bytes=1-3`. -/
theorem rangeRequest_bounded_spec_witness :
    handleRangeRequest [10, 11, 12, 13, 14] ("bytes=".toList ++ (['1'] ++ '-' :: ['3'])) =
      RangeResult.partialContent "bytes 1-3/5" 3 [11, 12, 13] true := by
  have h := (rangeRequest_bounded_spec [10, 11, 12, 13, 14] ['1'] ['3'] 1 3
      (by decide) (by decide)).1 (by decide)
  refine h.1.trans ?_
  decide

/-- C10: a suffix-form header `Range: bytes=-B` is treated with start
defaulted to 0: when `B < fileSize` the handler serves bytes `0..B` — the
first `B+1` bytes of the file — as partial content (not the last `B` bytes
as HTTP suffix-range semantics would demand). -/
theorem rangeRequest_suffix_spec (file : List Nat) (db : List Char) (B : Nat)
    (hB : parseDigits db = some B) (hBlt : B < file.length) :
    handleRangeRequest file ("bytes=".toList ++ '-' :: db) =
      RangeResult.partialContent
        ("bytes " ++ toString (0 : Int) ++ "-" ++ toString (B : Int) ++ "/"
          ++ toString (file.length : Int))
        ((B : Int) - 0 + 1) (file.take (B + 1)) true ∧
    (file.take (B + 1)).length = B + 1 := by
  obtain ⟨hdbNe, hdbDig, -⟩ := parseDigits_some hB
  have hdashB : '-' ∉ db := not_mem_of_allDigits hdbDig (by decide)
  have hsplit : splitChar '-' ('-' :: db) = [[], db] := by
    have step : splitChar '-' ('-' :: db) = [] :: splitChar '-' db := by
      conv_lhs => unfold splitChar
      rw [if_pos rfl]
    rw [step, splitChar_of_not_mem '-' db hdashB]
  have hgB := parseGoInt_of_parseDigits hB
  have hreduce : handleRangeRequest file ("bytes=".toList ++ '-' :: db) =
      if (0 : Int) < 0 ∨ (file.length : Int) ≤ (0 : Int) ∨ (B : Int) < (0 : Int)
          ∨ (file.length : Int) ≤ (B : Int) then
        RangeResult.notSatisfiable ("bytes */" ++ toString (file.length : Int))
      else
        RangeResult.partialContent
          ("bytes " ++ toString (0 : Int) ++ "-" ++ toString (B : Int) ++ "/"
            ++ toString (file.length : Int))
          ((B : Int) - 0 + 1)
          (copyN file ((0 : Int)).toNat (((B : Int) - 0 + 1)).toNat).1
          (copyN file ((0 : Int)).toNat (((B : Int) - 0 + 1)).toNat).2 := by
    simp only [handleRangeRequest, isPrefixOf_append_self, if_true, drop6_bytes, hsplit,
      hdbNe, if_neg, hgB, ite_false, ite_true, if_pos]
  have hB0 : (((B : Int) - 0 + 1)).toNat = B + 1 := by omega
  have hcond : ¬ ((0 : Int) < 0 ∨ (file.length : Int) ≤ (0 : Int) ∨ (B : Int) < (0 : Int)
      ∨ (file.length : Int) ≤ (B : Int)) := by omega
  constructor
  · rw [hreduce, if_neg hcond]
    rw [show ((0 : Int)).toNat = 0 from rfl, hB0,
      copyN_exact file (B + 1) 0 (by omega)]
    rw [List.drop_zero]
  · exact length_take_of_le _ _ (by omega)

/-- Witness for C10 at a concrete input: a five-byte file served the
suffix-form range `bytes=-2`, yielding the first three bytes. -/
theorem rangeRequest_suffix_spec_witness :
    handleRangeRequest [10, 11, 12, 13, 14] ("bytes=".toList ++ '-' :: ['2']) =
      RangeResult.partialContent "bytes 0-2/5" 3 [10, 11, 12] true := by
  have h := rangeRequest_suffix_spec [10, 11, 12, 13, 14] ['2'] 2 (by decide) (by decide)
  refine h.1.trans ?_
  decide

/-- C2: for a line matching one of the two recognized shapes whose time
field parses to `t ≥ 0` and a known duration `D > 0`, `ParseLine` returns
`min (t / D) 1`; when the line matches neither shape, when `D ≤ 0`, when the
time field is malformed, or when the parsed time is negative, it returns the
no-progress sentinel `-1`. -/
theorem ParseLine_spec (D : ℚ) (line : FFLine) :
    (line.timeField? = none → ParseLine D line = -1) ∧
    (∀ ts t, line.timeField? = some ts → parseFFmpegTime ts = some t → 0 ≤ t → 0 < D →
      ParseLine D line = min (t / D) 1) ∧
    (D ≤ 0 → ParseLine D line = -1) ∧
    (∀ ts, line.timeField? = some ts → parseFFmpegTime ts = none → ParseLine D line = -1) ∧
    (∀ ts t, line.timeField? = some ts → parseFFmpegTime ts = some t → t < 0 →
      ParseLine D line = -1) := by
  refine ⟨?_, ?_, ?_, ?_, ?_⟩
  · intro h
    simp [ParseLine, h]
  · intro ts t hts hp ht hD
    simp only [ParseLine, hts, hp]
    rw [if_neg (not_lt.mpr ht), if_neg (not_le.mpr hD)]
  · intro hD
    cases hpf : line.timeField? with
    | none => simp [ParseLine, hpf]
    | some ts =>
      cases hp : parseFFmpegTime ts with
      | none => simp [ParseLine, hpf, hp]
      | some t =>
        by_cases ht : t < 0
        · simp [ParseLine, hpf, hp, ht]
        · simp [ParseLine, hpf, hp, ht, hD]
  · intro ts hts hp
    simp [ParseLine, hts, hp]
  · intro ts t hts hp ht
    simp [ParseLine, hts, hp, ht]

theorem foldl_keyframe_flags (kfs : List ℚ) (s e : ℚ) (a b : Bool) :
    kfs.foldl
      (fun (acc : Bool × Bool) kf =>
        ((if |kf - s| ≤ tolerance then true else acc.1),
         (if |kf - e| ≤ tolerance then true else acc.2)))
      (a, b) =
      (a || kfs.any (fun kf => decide (|kf - s| ≤ tolerance)),
       b || kfs.any (fun kf => decide (|kf - e| ≤ tolerance))) := by
  induction kfs generalizing a b with
  | nil => simp
  | cons kf rest ih =>
    simp only [List.foldl_cons, List.any_cons, ih]
    by_cases hs : |kf - s| ≤ tolerance <;> by_cases he : |kf - e| ≤ tolerance <;>
      simp [hs, he, Bool.or_assoc]

/-- C3: the keyframe heuristic reports a `[start, stop)` range as
lossless-feasible exactly when both boundaries are keyframe-aligned: for each
of `start` and `stop` some extracted keyframe timestamp lies within 0.1
seconds of it; if either boundary has no keyframe within the tolerance, the
heuristic reports not-feasible. -/
theorem canDoLosslessCut_iff (keyframes : List ℚ) (start stop : ℚ) :
    canDoLosslessCut keyframes start stop = true ↔
      ((∃ kf ∈ keyframes, |kf - start| ≤ 1 / 10) ∧
       (∃ kf ∈ keyframes, |kf - stop| ≤ 1 / 10)) := by
  simp only [canDoLosslessCut]
  rw [foldl_keyframe_flags]
  simp [List.any_eq_true, tolerance]

/-- C7 counterexample: called with zero inputs, `MergeVideos` does not return
an early error — it builds an empty concat list file and spawns the concat
demuxer process on it. -/
theorem mergeVideosPlan_empty_cex :
    (mergeVideosPlan [] "output.mp4").isSpawn = true ∧
    mergeVideosPlan [] "output.mp4" =
      MergePlan.spawn ""
        ["-hide_banner", "-f", "concat", "-safe", "0", "-i", "output.mp4.concat.txt",
         "-map", "0", "-c", "copy", "-avoid_negative_ts", "make_zero", "-movflags",
         "+faststart", "-y", "output.mp4"] := by
  constructor
  · rfl
  · decide

/-- C7 amended: `MergeVideos` performs no input-count validation at all: for
every input list (the empty one included) it writes a concat list with one
`file '<input>'` line per input and spawns the concat demuxer; it never takes
an error return before spawning. -/
theorem mergeVideosPlan_no_validation (inputs : List String) (output : String) :
    (mergeVideosPlan inputs output).isSpawn = true ∧
    mergeVideosPlan inputs output =
      MergePlan.spawn (concatFileContent inputs)
        ["-hide_banner", "-f", "concat", "-safe", "0", "-i", output ++ ".concat.txt",
         "-map", "0", "-c", "copy", "-avoid_negative_ts", "make_zero", "-movflags",
         "+faststart", "-y", output] :=
  ⟨rfl, rfl⟩

theorem any_beq_eq_decide_mem (a : String) (l : List String) :
    (l.any fun i => a == i) = decide (a ∈ l) := by
  induction l with
  | nil => rfl
  | cons i is ih =>
    by_cases h : a = i
    · subst h
      simp
    · simp [List.any_cons, List.mem_cons, h, ih]

/-- C4 counterexample: with an empty requested-id list the orchestrator uses
all of the project's segments (the source documents `SegmentIDs` as "if
empty, export all"), not the empty subsequence of segments whose ids appear
among the requested ids, so the claim fails at the empty request. -/
theorem effectiveSegments_empty_request_cex :
    decide (effectiveSegments [{ id := "a", name := "s", start := 0, endTime? := none }] [] =
      List.filter (fun seg => decide (seg.id ∈ ([] : List String)))
        [{ id := "a", name := "s", start := 0, endTime? := none }]) = false := by
  decide

/-- C4 amended: for every nonempty list of requested segment ids, the
effective segment list is the subsequence of the project's segments whose
ids appear among the requested ids, in project order; the order (and
multiplicity) of the requested ids has no effect. -/
theorem effectiveSegments_spec (projectSegments : List Segment) (segmentIDs : List String)
    (hne : segmentIDs ≠ []) :
    effectiveSegments projectSegments segmentIDs =
      projectSegments.filter (fun seg => decide (seg.id ∈ segmentIDs)) ∧
    ∀ otherIDs : List String, otherIDs ≠ [] →
      (∀ x : String, x ∈ otherIDs ↔ x ∈ segmentIDs) →
      effectiveSegments projectSegments otherIDs =
        effectiveSegments projectSegments segmentIDs := by
  have key : ∀ ids : List String, ids ≠ [] →
      effectiveSegments projectSegments ids =
        projectSegments.filter (fun seg => decide (seg.id ∈ ids)) := by
    intro ids hne'
    unfold effectiveSegments
    rw [if_pos (List.length_pos.mpr hne')]
    apply List.filter_congr
    intro seg _
    rw [any_beq_eq_decide_mem]
  refine ⟨key segmentIDs hne, ?_⟩
  intro otherIDs hne2 hiff
  rw [key otherIDs hne2, key segmentIDs hne]
  apply List.filter_congr
  intro seg _
  simp [hiff]

/-- Witness for C4 at a concrete input: two project segments, one requested
id. -/
theorem effectiveSegments_spec_witness :
    effectiveSegments
        [{ id := "a", name := "", start := 0, endTime? := none },
         { id := "b", name := "", start := 1, endTime? := none }] ["b"] =
      List.filter (fun seg => decide (seg.id ∈ (["b"] : List String)))
        [{ id := "a", name := "", start := 0, endTime? := none },
         { id := "b", name := "", start := 1, endTime? := none }] :=
  (effectiveSegments_spec _ _ (by decide)).1

/-- C5: a segment with an absent end time is handled as a normal case by
every export path — the single-segment cut, the per-fragment cut before a
merge, the separate-file cut and the chapter entry all use the effective end
`start + 60` seconds. -/
theorem exportPaths_default_end (inputPath outputPath outputBaseName format : String)
    (tempFile : Nat → String) (segments : List Segment) (i : Nat)
    (hi : i < segments.length) (hnone : segments[i].endTime? = none) :
    (singleSegmentCut inputPath outputPath segments[i]).stop = segments[i].start + 60 ∧
    ((exportMergedSegmentsCuts inputPath tempFile segments)[i]?.map CutCmd.stop) =
      some (segments[i].start + 60) ∧
    ((exportMultipleSegmentsCuts inputPath outputBaseName format segments)[i]?.map
      CutCmd.stop) = some (segments[i].start + 60) ∧
    ((generateChaptersJSON segments)[i]?.map Chapter.stop) = some (segments[i].start + 60) ∧
    chapterStanza i segments[i] =
      chapterName i segments[i] ++ "\n" ++ chapterTimeString segments[i].start ++ "\n"
        ++ chapterTimeString (segments[i].start + 60) ++ "\n\n" := by
  have hend : segmentEnd segments[i] = segments[i].start + 60 := by
    simp [segmentEnd, hnone]
  have henum : segments.enum[i]? = some (i, segments[i]) := by
    simp [List.getElem?_enum, List.getElem?_eq_getElem hi]
  refine ⟨?_, ?_, ?_, ?_, ?_⟩
  · simp [singleSegmentCut, hend]
  · simp [exportMergedSegmentsCuts, List.getElem?_map, henum, hend]
  · simp [exportMultipleSegmentsCuts, List.getElem?_map, henum, hend]
  · simp [generateChaptersJSON, List.getElem?_map, henum, hend]
  · simp [chapterStanza, hend]

/-- Witness for C5 at a concrete input: one end-less segment starting at 5
seconds, cut to an effective end of 65 seconds by the merged-export path. -/
theorem exportPaths_default_end_witness :
    ((exportMergedSegmentsCuts "in.mp4" (fun _ => "tmp.mp4")
        [{ id := "a", name := "", start := 5, endTime? := none }])[0]?.map CutCmd.stop) =
      some (5 + 60) :=
  (exportPaths_default_end "in.mp4" "out.mp4" "base" "mp4" (fun _ => "tmp.mp4")
      [{ id := "a", name := "", start := 5, endTime? := none }] 0 (by decide) rfl).2.1

theorem ParseLine_le_one (D : ℚ) (line : FFLine) : ParseLine D line ≤ 1 := by
  rcases hts : line.timeField? with _ | ts
  · simp [ParseLine, hts]
  · rcases hp : parseFFmpegTime ts with _ | t
    · simp [ParseLine, hts, hp]
    · by_cases h1 : t < 0
      · simp [ParseLine, hts, hp, h1]
      · by_cases h2 : D ≤ 0
        · simp [ParseLine, hts, hp, h1, h2]
        · simp [ParseLine, hts, hp, h1, h2, min_le_right]

theorem ParseLine_of_elapsed_none (D : ℚ) (line : FFLine) (h : lineElapsed line = none) :
    ParseLine D line = -1 := by
  rcases hts : line.timeField? with _ | ts
  · simp [ParseLine, hts]
  · simp only [lineElapsed, hts] at h
    simp [ParseLine, hts, h]

theorem ParseLine_of_elapsed_some (D : ℚ) (line : FFLine) (t : ℚ)
    (h : lineElapsed line = some t) (ht : 0 ≤ t) (hD : 0 < D) :
    ParseLine D line = min (t / D) 1 := by
  rcases hts : line.timeField? with _ | ts
  · simp only [lineElapsed, hts] at h
    exact Option.noConfusion h
  · simp only [lineElapsed, hts] at h
    simp only [ParseLine, hts, h]
    rw [if_neg (not_lt.mpr ht), if_neg (not_le.mpr hD)]

theorem cutProgressTrace_eq_map (D : ℚ) (hD : 0 < D) (lines : List FFLine)
    (hnn : ∀ t ∈ lines.filterMap lineElapsed, 0 ≤ t) :
    cutProgressTrace D lines =
      (lines.filterMap lineElapsed).map (fun t => min (t / D) 1 * 100) := by
  induction lines with
  | nil => rfl
  | cons l ls ih =>
    have hnn' : ∀ t ∈ ls.filterMap lineElapsed, 0 ≤ t := by
      intro t ht'
      apply hnn
      rw [List.mem_filterMap] at ht' ⊢
      obtain ⟨a, ha, hfa⟩ := ht'
      exact ⟨a, List.mem_cons_of_mem _ ha, hfa⟩
    rcases he : lineElapsed l with _ | t
    · have h1 : ParseLine D l = -1 := ParseLine_of_elapsed_none D l he
      simp only [cutProgressTrace, List.filterMap_cons, he, h1] at ih ⊢
      rw [if_neg (by norm_num)]
      exact ih hnn'
    · have ht0 : 0 ≤ t := hnn t (by
        rw [List.mem_filterMap]
        exact ⟨l, List.mem_cons_self l ls, he⟩)
      have h1 : ParseLine D l = min (t / D) 1 := ParseLine_of_elapsed_some D l t he ht0 hD
      have hcond : (0 : ℚ) ≤ min (t / D) 1 := le_min (div_nonneg ht0 hD.le) zero_le_one
      simp only [cutProgressTrace, List.filterMap_cons, he, h1] at ih ⊢
      rw [if_pos hcond, List.map_cons]
      exact congrArg _ (ih hnn')

theorem chain_min_div_map (D : ℚ) (hD : 0 < D) :
    ∀ ts : List ℚ, (∀ t ∈ ts, 0 ≤ t) → List.Chain' (· ≤ ·) ts →
      List.Chain' (· ≤ ·) (ts.map (fun t => min (t / D) 1 * 100)) := by
  intro ts
  induction ts with
  | nil =>
    intro _ _
    simp
  | cons t1 rest ih =>
    intro hnn hch
    cases rest with
    | nil => simp
    | cons t2 rest' =>
      obtain ⟨h12, hch'⟩ := List.chain'_cons.mp hch
      rw [List.map_cons, List.map_cons, List.chain'_cons]
      constructor
      · have h1 : (0 : ℚ) ≤ t1 := hnn t1 (List.mem_cons_self _ _)
        have hdiv : t1 / D ≤ t2 / D := by gcongr
        have hmin : min (t1 / D) 1 ≤ min (t2 / D) 1 := min_le_min hdiv le_rfl
        exact mul_le_mul_of_nonneg_right hmin (by norm_num)
      · have := ih (fun t ht => hnn t (List.mem_cons_of_mem _ ht)) hch'
        simpa using this

/-- C8 amended: every progress value the operation's callback stores lies in
`[0, 100]`, and within one cut or merge invocation the stored values are
non-decreasing whenever the parsed elapsed times on the stderr lines are
non-negative and non-decreasing; across the successive per-segment cuts of a
separate-file export, however, the visible progress restarts per segment and
is not monotone over the whole processing phase (see the counterexample). -/
theorem operationProgress_spec :
    (∀ (D : ℚ) (lines : List FFLine) (p : ℚ), p ∈ cutProgressTrace D lines →
      0 ≤ p ∧ p ≤ 100) ∧
    (∀ (D : ℚ) (lines : List FFLine), 0 < D →
      (∀ t ∈ lines.filterMap lineElapsed, 0 ≤ t) →
      List.Chain' (· ≤ ·) (lines.filterMap lineElapsed) →
      List.Chain' (· ≤ ·) (cutProgressTrace D lines)) := by
  constructor
  · intro D lines p hp
    simp only [cutProgressTrace] at hp
    obtain ⟨l, _, hfl⟩ := List.mem_filterMap.mp hp
    by_cases h : 0 ≤ ParseLine D l
    · rw [if_pos h] at hfl
      injection hfl with hfl
      subst hfl
      refine ⟨mul_nonneg h (by norm_num), ?_⟩
      have := ParseLine_le_one D l
      nlinarith
    · rw [if_neg h] at hfl
      exact absurd hfl (by simp)
  · intro D lines hD hnn hch
    rw [cutProgressTrace_eq_map D hD lines hnn]
    exact chain_min_div_map D hD _ hnn hch

/-- C8 counterexample: a separate-file export of two ten-second segments
where the first cut reports elapsed time 10s (progress 100) and the second
cut then reports elapsed time 1s (progress 10): the operation's visible
progress trace is `[100, 10]`, which is not monotonically non-decreasing. -/
theorem exportSeparateProgressTrace_cex :
    exportSeparateProgressTrace
        [{ id := "a", name := "", start := 0, endTime? := some 10 },
         { id := "b", name := "", start := 0, endTime? := some 10 }]
        [[FFLine.video ("00:00:10.00".toList)], [FFLine.video ("00:00:01.00".toList)]] =
      [100, 10] ∧
    ¬ List.Chain' (· ≤ ·) ([100, 10] : List ℚ) := by
  have hp1 : parseFFmpegTime ("00:00:10.00".toList) = some 10 := by
    have hl : "00:00:10.00".toList = ['0', '0', ':', '0', '0', ':', '1', '0', '.', '0', '0'] := by
      decide
    have h1 : splitChar ':' ['0', '0', ':', '0', '0', ':', '1', '0', '.', '0', '0'] =
        [['0', '0'], ['0', '0'], ['1', '0', '.', '0', '0']] := by decide
    have h2 : splitChar '.' ['1', '0', '.', '0', '0'] = [['1', '0'], ['0', '0']] := by decide
    have hv10 : digitsVal ['1', '0'] = 10 := by decide
    have hv0 : digitsVal ['0', '0'] = 0 := by decide
    rw [hl]
    simp only [parseFFmpegTime, ffTimeCore, h1, h2, hv10, hv0]
    rw [if_neg (by decide), if_pos (by decide)]
    norm_num
  have hp2 : parseFFmpegTime ("00:00:01.00".toList) = some 1 := by
    have hl : "00:00:01.00".toList = ['0', '0', ':', '0', '0', ':', '0', '1', '.', '0', '0'] := by
      decide
    have h1 : splitChar ':' ['0', '0', ':', '0', '0', ':', '0', '1', '.', '0', '0'] =
        [['0', '0'], ['0', '0'], ['0', '1', '.', '0', '0']] := by decide
    have h2 : splitChar '.' ['0', '1', '.', '0', '0'] = [['0', '1'], ['0', '0']] := by decide
    have hv1 : digitsVal ['0', '1'] = 1 := by decide
    have hv0 : digitsVal ['0', '0'] = 0 := by decide
    rw [hl]
    simp only [parseFFmpegTime, ffTimeCore, h1, h2, hv1, hv0]
    rw [if_neg (by decide), if_pos (by decide)]
    norm_num
  constructor
  · simp only [exportSeparateProgressTrace, cutProgressTrace, segmentEnd, List.zip_cons_cons,
      List.zip_nil_right, List.map_cons, List.map_nil, List.filterMap_cons, List.filterMap_nil,
      ParseLine, FFLine.timeField?, hp1, hp2]
    norm_num
  · intro h
    rw [List.chain'_cons] at h
    exact absurd h.1 (by norm_num)

theorem ffTimeCore_true_eq_neg (rest : List Char) :
    ffTimeCore true rest = (ffTimeCore false rest).map (fun q => -q) := by
  unfold ffTimeCore
  split
  · split
    · split
      · simp
      · simp
    · simp
  · simp

theorem ffTimeCore_isSome_iff (neg : Bool) (rest : List Char) :
    (ffTimeCore neg rest).isSome = true ↔ CoreTimeShape rest := by
  constructor
  · intro h
    unfold ffTimeCore at h
    split at h
    · rename_i g1 g2 g3cs heq
      split at h
      · rename_i g3 g4 heq2
        split at h
        · rename_i hcond
          obtain ⟨h1, h2, h3, h4, d1, d2, d3, d4⟩ := hcond
          refine ⟨g1, g2, g3, g4, h1, h2, h3, h4, d1, d2, d3, d4, ?_⟩
          have e1 := joinSep_splitChar ':' rest
          rw [heq] at e1
          have e2 := joinSep_splitChar '.' g3cs
          rw [heq2] at e2
          simp only [joinSep] at e1 e2
          rw [← e1, ← e2]
        · exact absurd h (by simp)
      · exact absurd h (by simp)
    · exact absurd h (by simp)
  · rintro ⟨g1, g2, g3, g4, h1, h2, h3, h4, d1, d2, d3, d4, rfl⟩
    have hc1 : ':' ∉ g1 := not_mem_of_allDigits d1 (by decide)
    have hc2 : ':' ∉ g2 := not_mem_of_allDigits d2 (by decide)
    have hc3 : ':' ∉ g3 ++ '.' :: g4 := by
      intro hm
      rcases List.mem_append.mp hm with hm | hm
      · exact not_mem_of_allDigits d3 (by decide) hm
      · rcases List.mem_cons.mp hm with hm | hm
        · exact absurd hm (by decide)
        · exact not_mem_of_allDigits d4 (by decide) hm
    have hd3 : '.' ∉ g3 := not_mem_of_allDigits d3 (by decide)
    have hd4 : '.' ∉ g4 := not_mem_of_allDigits d4 (by decide)
    have hs1 : splitChar ':' (g1 ++ ':' :: (g2 ++ ':' :: (g3 ++ '.' :: g4))) =
        [g1, g2, g3 ++ '.' :: g4] := by
      rw [splitChar_append ':' g1 _ hc1, splitChar_append ':' g2 _ hc2,
        splitChar_of_not_mem ':' _ hc3]
    have hs2 : splitChar '.' (g3 ++ '.' :: g4) = [g3, g4] := by
      rw [splitChar_append '.' g3 g4 hd3, splitChar_of_not_mem '.' g4 hd4]
    simp only [ffTimeCore, hs1, hs2]
    rw [if_pos ⟨h1, h2, h3, h4, d1, d2, d3, d4⟩]
    simp

/-- C6 counterexample: the elapsed-time parser accepts the string `1:2:3.4`,
whose components are not two-digit, and parses it to
`1*3600 + 2*60 + 3 + 4/100` seconds — the claim that only the strictly
two-digit `HH:MM:SS.CC` pattern is accepted fails here. -/
theorem parseFFmpegTime_one_digit_cex :
    parseFFmpegTime ("1:2:3.4".toList) = some (93076 / 25) := by
  have hl : "1:2:3.4".toList = ['1', ':', '2', ':', '3', '.', '4'] := by decide
  have h1 : splitChar ':' ['1', ':', '2', ':', '3', '.', '4'] =
      [['1'], ['2'], ['3', '.', '4']] := by decide
  have h2 : splitChar '.' ['3', '.', '4'] = [['3'], ['4']] := by decide
  have hv1 : digitsVal ['1'] = 1 := by decide
  have hv2 : digitsVal ['2'] = 2 := by decide
  have hv3 : digitsVal ['3'] = 3 := by decide
  have hv4 : digitsVal ['4'] = 4 := by decide
  rw [hl]
  have hred : parseFFmpegTime ['1', ':', '2', ':', '3', '.', '4'] =
      ffTimeCore false ['1', ':', '2', ':', '3', '.', '4'] := by
    have hdef : parseFFmpegTime ('1' :: [':', '2', ':', '3', '.', '4']) =
        if ('1' : Char) = '-' then ffTimeCore true [':', '2', ':', '3', '.', '4']
        else ffTimeCore false ('1' :: [':', '2', ':', '3', '.', '4']) := rfl
    rw [hdef, if_neg (by decide)]
  rw [hred]
  simp only [ffTimeCore, h1, h2, hv1, hv2, hv3, hv4]
  rw [if_pos (by decide)]
  norm_num

/-- C6 amended: the elapsed-time parser accepts exactly the strings matching
`-?\d+:\d+:\d+\.\d+` — one **or more** digits per component, not exactly two
— and a leading `-` negates the parsed value. -/
theorem parseFFmpegTime_shape_spec :
    (∀ s : List Char, (parseFFmpegTime s).isSome = true ↔ FFTimeShape s) ∧
    (∀ (c : Char) (rest : List Char), c.isDigit = true →
      parseFFmpegTime ('-' :: c :: rest) = (parseFFmpegTime (c :: rest)).map (fun q => -q)) := by
  constructor
  · intro s
    cases s with
    | nil =>
      constructor
      · intro h
        simp [parseFFmpegTime] at h
      · rintro (⟨g1, g2, g3, g4, h1, h2, h3, h4, d1, d2, d3, d4, heq⟩ | ⟨rest, heq, hcore⟩)
        · simp at heq
        · simp at heq
    | cons c rest =>
      by_cases hc : c = '-'
      · subst hc
        have hred : parseFFmpegTime ('-' :: rest) = ffTimeCore true rest := by
          have hdef : parseFFmpegTime ('-' :: rest) =
              if ('-' : Char) = '-' then ffTimeCore true rest
              else ffTimeCore false ('-' :: rest) := rfl
          rw [hdef, if_pos rfl]
        rw [hred, ffTimeCore_isSome_iff]
        constructor
        · intro hcore
          exact Or.inr ⟨rest, rfl, hcore⟩
        · rintro (⟨g1, g2, g3, g4, h1, h2, h3, h4, d1, d2, d3, d4, heq⟩ | ⟨rest', heq, hcore⟩)
          · cases g1 with
            | nil => exact absurd rfl h1
            | cons a g1' =>
              simp only [List.cons_append] at heq
              injection heq with heq1 _
              have ha : a.isDigit = true := by
                have := List.all_eq_true.mp d1 a (List.mem_cons_self a g1')
                simpa using this
              rw [← heq1] at ha
              exact absurd ha (by decide)
          · injection heq with _ heq2
            rw [heq2]
            exact hcore
      · have hred : parseFFmpegTime (c :: rest) = ffTimeCore false (c :: rest) := by
          have hdef : parseFFmpegTime (c :: rest) =
              if c = '-' then ffTimeCore true rest
              else ffTimeCore false (c :: rest) := rfl
          rw [hdef, if_neg hc]
        rw [hred, ffTimeCore_isSome_iff]
        constructor
        · exact Or.inl
        · rintro (hcore | ⟨rest', heq, hcore⟩)
          · exact hcore
          · injection heq with heq1 _
            exact absurd heq1 hc
  · intro c rest hcdig
    have hcne : ¬ c = '-' := by
      intro hceq
      rw [hceq] at hcdig
      exact absurd hcdig (by decide)
    have hr1 : parseFFmpegTime ('-' :: c :: rest) = ffTimeCore true (c :: rest) := by
      have hdef : parseFFmpegTime ('-' :: c :: rest) =
          if ('-' : Char) = '-' then ffTimeCore true (c :: rest)
          else ffTimeCore false ('-' :: c :: rest) := rfl
      rw [hdef, if_pos rfl]
    have hr2 : parseFFmpegTime (c :: rest) = ffTimeCore false (c :: rest) := by
      have hdef : parseFFmpegTime (c :: rest) =
          if c = '-' then ffTimeCore true rest
          else ffTimeCore false (c :: rest) := rfl
      rw [hdef, if_neg hcne]
    rw [hr1, hr2, ffTimeCore_true_eq_neg]

theorem toList_append (a b : String) : (a ++ b).toList = a.toList ++ b.toList := rfl

set_option maxRecDepth 4000 in
theorem readTwoDigit_pad2 : ∀ n : Nat, n < 100 → readTwoDigit ((pad2 (n : Int)).toList) = some n := by
  decide

set_option maxRecDepth 40000 in
theorem readThreeDigit_pad3 :
    ∀ n : Nat, n < 1000 → readThreeDigit ((pad3 (n : Int)).toList) = some n := by
  decide

theorem readTwoDigit_inv {l : List Char} {n : Nat} (h : readTwoDigit l = some n) :
    ∃ c1 c2, l = [c1, c2] ∧ c1.isDigit = true ∧ c2.isDigit = true ∧
      digitsVal [c1, c2] = n := by
  unfold readTwoDigit at h
  split at h
  · rename_i c1 c2
    split at h
    · rename_i hd
      rw [Bool.and_eq_true] at hd
      exact ⟨c1, c2, rfl, hd.1, hd.2, by injection h⟩
    · exact absurd h (by simp)
  · exact absurd h (by simp)

theorem readThreeDigit_inv {l : List Char} {n : Nat} (h : readThreeDigit l = some n) :
    ∃ c1 c2 c3, l = [c1, c2, c3] ∧ c1.isDigit = true ∧ c2.isDigit = true ∧
      c3.isDigit = true ∧ digitsVal [c1, c2, c3] = n := by
  unfold readThreeDigit at h
  split at h
  · rename_i c1 c2 c3
    split at h
    · rename_i hd
      rw [Bool.and_eq_true, Bool.and_eq_true] at hd
      exact ⟨c1, c2, c3, rfl, hd.1.1, hd.1.2, hd.2, by injection h⟩
    · exact absurd h (by simp)
  · exact absurd h (by simp)

/-- C9 amended: for every effective chapter time `0 ≤ t < 360000` the
plain-text chapter writer emits the timestamp as a literal `00:` followed by
`HH:MM:SS.mmm` (two-digit-padded hours, minutes and seconds, three-digit
truncated milliseconds) — four colon-separated groups, not the claimed
`HH:MM:SS.mmm` — and parsing that string back recovers `⌊t⌋` whole seconds
and the truncated milliseconds exactly. -/
theorem chapterTimeString_roundtrip (t : ℚ) (h0 : 0 ≤ t) (hlt : t < 360000) :
    readTimestamp ((chapterTimeString t).toList) =
      some (⌊t⌋.toNat, (⌊(t - (⌊t⌋ : ℚ)) * 1000⌋).toNat) := by
  have hfl0 : (0 : Int) ≤ ⌊t⌋ := Int.floor_nonneg.mpr h0
  set k : Nat := ⌊t⌋.toNat with hkdef
  have hkk : ⌊t⌋ = (k : Int) := (Int.toNat_of_nonneg hfl0).symm
  have hgo : goTrunc t = (k : Int) := by
    unfold goTrunc
    rw [if_pos h0, hkk]
  have hklt : k < 360000 := by
    have h1 : ⌊t⌋ < (360000 : Int) := Int.floor_lt.mpr (by push_cast; exact hlt)
    omega
  have hcast : ((k : Int) : ℚ) = (⌊t⌋ : ℚ) := by
    rw [hkk]
  have hle : ((⌊t⌋ : Int) : ℚ) ≤ t := Int.floor_le t
  have hlt1 : t < ((⌊t⌋ : Int) : ℚ) + 1 := Int.lt_floor_add_one t
  have hfr0 : (0 : ℚ) ≤ (t - ((k : Int) : ℚ)) * 1000 := by
    rw [hcast]
    nlinarith
  have hfr1 : (t - ((k : Int) : ℚ)) * 1000 < 1000 := by
    rw [hcast]
    nlinarith
  have hms0 : (0 : Int) ≤ ⌊(t - ((k : Int) : ℚ)) * 1000⌋ := Int.floor_nonneg.mpr hfr0
  set ms : Nat := (⌊(t - ((k : Int) : ℚ)) * 1000⌋).toNat with hmsdef
  have hmsk : ⌊(t - ((k : Int) : ℚ)) * 1000⌋ = (ms : Int) := (Int.toNat_of_nonneg hms0).symm
  have hmslt : ms < 1000 := by
    have h2 : ⌊(t - ((k : Int) : ℚ)) * 1000⌋ < (1000 : Int) :=
      Int.floor_lt.mpr (by push_cast; exact hfr1)
    omega
  have hgoms : goTrunc ((t - ((k : Int) : ℚ)) * 1000) = (ms : Int) := by
    unfold goTrunc
    rw [if_pos hfr0, hmsk]
  have c1 : Int.tdiv (k : Int) 3600 = ((k / 3600 : Nat) : Int) := by
    rw [show (3600 : Int) = ((3600 : Nat) : Int) by norm_cast]
    exact (Int.ofNat_tdiv k 3600).symm
  have c2 : Int.tmod (k : Int) 3600 = ((k % 3600 : Nat) : Int) := by
    rw [show (3600 : Int) = ((3600 : Nat) : Int) by norm_cast]
    exact (Int.ofNat_tmod k 3600).symm
  have c3 : Int.tdiv ((k % 3600 : Nat) : Int) 60 = (((k % 3600) / 60 : Nat) : Int) := by
    rw [show (60 : Int) = ((60 : Nat) : Int) by norm_cast]
    exact (Int.ofNat_tdiv (k % 3600) 60).symm
  have c4 : Int.tmod (k : Int) 60 = ((k % 60 : Nat) : Int) := by
    rw [show (60 : Int) = ((60 : Nat) : Int) by norm_cast]
    exact (Int.ofNat_tmod k 60).symm
  have hstr : chapterTimeString t =
      "00:" ++ pad2 ((k / 3600 : Nat) : Int) ++ ":" ++ pad2 (((k % 3600) / 60 : Nat) : Int)
        ++ ":" ++ pad2 ((k % 60 : Nat) : Int) ++ "." ++ pad3 ((ms : Nat) : Int) := by
    simp only [chapterTimeString]
    rw [hgo, hgoms, c1, c2, c3, c4]
  have hH := readTwoDigit_pad2 (k / 3600) (by omega)
  have hM := readTwoDigit_pad2 ((k % 3600) / 60) (by omega)
  have hS := readTwoDigit_pad2 (k % 60) (by omega)
  have hD3 := readThreeDigit_pad3 ms hmslt
  obtain ⟨a1, a2, hA, hA1, hA2, hAv⟩ := readTwoDigit_inv hH
  obtain ⟨b1, b2, hB, hB1, hB2, hBv⟩ := readTwoDigit_inv hM
  obtain ⟨d1, d2, hC, hC1, hC2, hCv⟩ := readTwoDigit_inv hS
  obtain ⟨e1, e2, e3, hE, hE1, hE2, hE3, hEv⟩ := readThreeDigit_inv hD3
  have h00 : "00:".toList = ['0', '0', ':'] := by decide
  have hcol : ":".toList = [':'] := by decide
  have hdot : ".".toList = ['.'] := by decide
  rw [hstr]
  simp only [toList_append, h00, hcol, hdot, hA, hB, hC, hE, List.cons_append,
    List.nil_append, List.append_assoc]
  simp only [readTimestamp]
  rw [if_pos (by
    simp [allDigits, hA1, hA2, hB1, hB2, hC1, hC2, hE1, hE2, hE3])]
  rw [hAv, hBv, hCv, hEv]
  have hsum : k / 3600 * 3600 + k % 3600 / 60 * 60 + k % 60 = k := by omega
  rw [hsum, hkk]

/-- Witness for C9 at a concrete input: the effective time 61.5 seconds is
written as `00:00:01:01.500` and reads back as 61 whole seconds and 500
milliseconds. -/
theorem chapterTimeString_roundtrip_witness :
    readTimestamp ((chapterTimeString (123 / 2 : ℚ)).toList) = some (61, 500) := by
  have h := chapterTimeString_roundtrip (123 / 2) (by norm_num) (by norm_num)
  rw [h]
  norm_num
  exact ⟨rfl, rfl⟩

/-- C9 counterexample: for a project segment from 0 to 61 seconds the
plain-text chapter artifact writes the timestamps `00:00:00:00.000` and
`00:00:01:01.000` — a literal `00:` prefix followed by `HH:MM:SS.mmm`, which
does not have the claimed `HH:MM:SS.mmm` shape. -/
theorem generateChaptersTXT_shape_cex :
    generateChaptersTXT [{ id := "s1", name := "Intro", start := 0, endTime? := some 61 }] =
      "Intro\n00:00:00:00.000\n00:00:01:01.000\n\n" ∧
    isHHMMSSmmm ("00:00:00:00.000".toList) = false := by
  have hgo0 : goTrunc (0 : ℚ) = 0 := by
    unfold goTrunc
    rw [if_pos le_rfl]
    exact Int.floor_zero
  have hgo61 : goTrunc (61 : ℚ) = 61 := by
    unfold goTrunc
    rw [if_pos (by norm_num)]
    norm_num
  have ht0 : chapterTimeString 0 = "00:00:00:00.000" := by
    simp only [chapterTimeString, hgo0]
    rw [show ((0 : ℚ) - ((0 : Int) : ℚ)) * 1000 = 0 by norm_num, hgo0]
    decide
  have ht61 : chapterTimeString 61 = "00:00:01:01.000" := by
    simp only [chapterTimeString, hgo61]
    rw [show ((61 : ℚ) - ((61 : Int) : ℚ)) * 1000 = 0 by norm_num, hgo0]
    decide
  refine ⟨?_, by decide⟩
  have henum : ([{ id := "s1", name := "Intro", start := 0, endTime? := some 61 }] :
      List Segment).enum =
      [(0, { id := "s1", name := "Intro", start := 0, endTime? := some 61 })] := rfl
  simp only [generateChaptersTXT, chapterStanza, chapterName, segmentEnd, henum,
    List.map_cons, List.map_nil]
  rw [ht0, ht61]
  decide

end LosslessCut
